import Mathlib

/-!
# Verification of the Shipi18n fallback/reconciliation engine

Shallow embedding of the core of `src/index.ts` of the Shipi18n API client:
the nested-path accessor (`getNestedValue` / `setNestedValue`), the
missing-key detector (`findMissingKeys`), the regional-language resolver
(`processRegionalLanguages`) and the fallback reconciliation engine
(`applyFallbacks`).

Modelling choices:
* JSON-like runtime values are the inductive `Value`; a JS object is an
  association list of fields in insertion order.  Objects coming from
  `JSON.parse` have pairwise distinct keys and no shared substructure,
  which is the situation the engine runs in.
* JavaScript truthiness, `typeof x = "object"` (which holds for `null`,
  arrays and plain objects) and property access are modelled explicitly;
  property access on arrays sees the element indices and `length`, as in
  JS.  Prototype-chain properties (`toString`, ...) are outside the model:
  documents are pure JSON data.
* JS `path.split(".")` for a one-character separator is `splitDot` below,
  defined by structural recursion on the character list.
* Fallible operations return `Option`; `none` models a thrown `TypeError`
  (for example `setNestedValue` walking through a `null` intermediate).
  Writing through an *array* intermediate mutates the array in JS; that
  corner is outside the value model and `setNestedKeys` returns `none`
  there, so theorems about `setNestedValue` restrict to inputs that do not
  reach it.
* The engine mutates the translation map in place; the value model threads
  the map functionally, which coincides with the JS behaviour whenever no
  two aliases of the same object are mutated.  A second, heap-accurate
  model (`namespace HeapModel`) captures the aliasing introduced by the
  shallow copies `{...baseTranslation}` and is used where aliasing is the
  point.
-/

/-- A JavaScript/JSON runtime value as consumed by the engine. -/
inductive Value where
  | vNull : Value
  | vStr (s : String) : Value
  | vNum (n : Int) : Value
  | vBool (b : Bool) : Value
  | vArr (xs : List Value) : Value
  | vObj (fields : List (String × Value)) : Value
  deriving Repr

open Value

/-- A JS object literal: ordered fields.  `Record of string to unknown` in the source. -/
abbrev Document := List (String × Value)

/-- First-occurrence association lookup: JS property read on own properties. -/
def lookupFirst {κ α : Type} [DecidableEq κ] (l : List (κ × α)) (k : κ) : Option α :=
  match l with
  | [] => none
  | (k', v) :: t => if k' = k then some v else lookupFirst t k

/-- JS property assignment on an object: update the first occurrence in place,
or append a new field (insertion order). -/
def setEntry {κ α : Type} [DecidableEq κ] (l : List (κ × α)) (k : κ) (v : α) : List (κ × α) :=
  match l with
  | [] => [(k, v)]
  | (k', v') :: t => if k' = k then (k, v) :: t else (k', v') :: setEntry t k v

/-- JS `s.split(sep)` for a one-character separator, on the character list. -/
def splitCharAux (sep : Char) : List Char → List Char → List String
  | [], acc => [String.mk acc.reverse]
  | c :: rest, acc =>
    if c = sep then String.mk acc.reverse :: splitCharAux sep rest []
    else splitCharAux sep rest (c :: acc)

/-- JS `s.split(sep)` for a one-character separator. -/
def splitChar (sep : Char) (s : String) : List String :=
  splitCharAux sep s.data []

/-- JS `path.split(".")`. -/
def splitDot (s : String) : List String := splitChar '.' s

/-- JS truthiness of a value (`!x` is the negation of this). -/
def truthy : Value → Bool
  | vNull => false
  | vStr s => s ≠ ""
  | vNum n => n ≠ 0
  | vBool b => b
  | vArr _ => true
  | vObj _ => true

/-- JS `typeof x === "object"`: true for `null`, arrays and objects. -/
def typeofObject : Value → Bool
  | vNull => true
  | vArr _ => true
  | vObj _ => true
  | _ => false

/-- `x && typeof x === "object"`: a truthy object, i.e. an array or a plain object. -/
def truthyObject : Value → Bool
  | vArr _ => true
  | vObj _ => true
  | _ => false

/-- The own enumerable properties of an array, as JS exposes them to string-keyed
property access: the element indices and `length`. -/
def arrayProps (xs : List Value) : List (String × Value) :=
  (xs.enum.map fun p => (Nat.repr p.1, p.2)) ++ [("length", vNum (Int.ofNat xs.length))]

/-- The own enumerable properties of a primitive string wrapper: character
indices and `length`. -/
def stringProps (s : String) : List (String × Value) :=
  (s.data.enum.map fun p => (Nat.repr p.1, vStr (String.mk [p.2]))) ++
    [("length", vNum (Int.ofNat s.length))]

/-- JS property read `v[k]` on own (data) properties; `none` is `undefined`. -/
def jsLookup : Value → String → Option Value
  | vObj fs, k => lookupFirst fs k
  | vArr xs, k => lookupFirst (arrayProps xs) k
  | vStr s, k => lookupFirst (stringProps s) k
  | _, _ => none

/-- JS `Object.keys(v)` (for non-null values): own enumerable keys. -/
def ownKeys : Value → List String
  | vObj fs => fs.map Prod.fst
  | vArr xs => xs.enum.map fun p => Nat.repr p.1
  | vStr s => s.data.enum.map fun p => Nat.repr p.1
  | _ => []

/-- JS spread `{...v}` of a value into a fresh object literal: copies the own
enumerable properties (for an object, its fields; for an array or string, the
indexed elements). -/
def spreadToObj : Value → Document
  | vObj fs => fs
  | vArr xs => xs.enum.map fun p => (Nat.repr p.1, p.2)
  | vStr s => s.data.enum.map fun p => (Nat.repr p.1, vStr (String.mk [p.2]))
  | _ => []

/-- One step of the `reduce` inside `getNestedValue` in `src/index.ts`:
if the current value is a truthy object and has the key, descend; otherwise
the result is `undefined` (and stays `undefined` for the rest of the fold). -/
def getStep (cur : Option Value) (k : String) : Option Value :=
  match cur with
  | some c => if truthyObject c then jsLookup c k else none
  | none => none

/-- The key-list core of `getNestedValue`: the `reduce` over the split path. -/
def getNestedKeys (v : Value) (ks : List String) : Option Value :=
  ks.foldl getStep (some v)

/-- `getNestedValue(obj, path)` from `src/index.ts`: walk `path.split(".")`
from the root; `none` is `undefined`. -/
def getNestedValue (obj : Document) (path : String) : Option Value :=
  getNestedKeys (vObj obj) (splitDot path)

/-- The key-list core of `setNestedValue`.  Walks every key but the last,
overwriting a missing or non-`object`-typed intermediate with `{}` (the source:
`if (!(key in current) || typeof current[key] !== 'object') current[key] = {}`),
then assigns at the final key.  `none` models a thrown `TypeError`
(descending into `null`); descending into an array mutates the array in JS
and is outside the value model, so it is also mapped to `none` and theorems
about `setNestedValue` avoid that case. -/
def setNestedKeys : Value → List String → Value → Option Value
  | vObj f, [k], v => some (vObj (setEntry f k v))
  | vObj f, k :: k2 :: rest, v =>
    let w' : Value :=
      match lookupFirst f k with
      | some x => if typeofObject x then x else vObj []
      | none => vObj []
    (match setNestedKeys w' (k2 :: rest) v with
     | some sub => some (vObj (setEntry f k sub))
     | none => none)
  | _, _, _ => none

/-- `setNestedValue(obj, path, value)` from `src/index.ts`, as a function
returning the updated document (`none` models a thrown `TypeError`). -/
def setNestedValue (obj : Document) (path : String) (v : Value) : Option Document :=
  match setNestedKeys (vObj obj) (splitDot path) v with
  | some (vObj f) => some f
  | _ => none

/-- `prefix ? prefix + "." + key : key` from `findMissingKeys`. -/
def mkFullKey (pre k : String) : String :=
  if pre = "" then k else pre ++ "." ++ k

/-- `findMissingKeys(source, translation, prefix)` from `src/index.ts`.
Iterates the source fields in order; a key is missing when the corresponding
candidate value is `undefined`, `null` or the empty string; otherwise, when
the source value is a non-array object and the candidate value has
`typeof = "object"` and is non-null (arrays included!), it recurses. -/
def findMissingKeys : Document → Value → String → List String
  | [], _, _ => []
  | (k, sv) :: rest, cand, pre =>
    (match jsLookup cand k with
     | none => [mkFullKey pre k]
     | some vNull => [mkFullKey pre k]
     | some (vStr "") => [mkFullKey pre k]
     | some tv =>
       match sv with
       | vObj sf =>
         if truthyObject tv then findMissingKeys sf tv (mkFullKey pre k)
         else []
       | _ => []) ++ findMissingKeys rest cand pre

example : splitDot "a.b" = ["a", "b"] := rfl

/-- One iteration of the loop in `processRegionalLanguages` in `src/index.ts`.
State: (regionalMap, processedTargets, baseLanguagesAdded). -/
def prlStep (targetLanguages : List String) (regionalFallback : Bool)
    (st : List (String × String) × List String × List String) (lang : String) :
    List (String × String) × List String × List String :=
  let (rm, processed, added) := st
  let (rm, processed, added) :=
    if lang.data.contains '-' && regionalFallback then
      let baseLang := (splitChar '-' lang).headD ""
      let rm := setEntry rm lang baseLang
      if !(added.contains baseLang) && !(targetLanguages.contains baseLang) then
        (rm, processed ++ [baseLang], added ++ [baseLang])
      else (rm, processed, added)
    else (rm, processed, added)
  if !(processed.contains lang) then (rm, processed ++ [lang], added)
  else (rm, processed, added)

/-- `processRegionalLanguages(targetLanguages, regionalFallback)` from
`src/index.ts`: returns `(processedTargets, regionalMap)`. -/
def processRegionalLanguages (targetLanguages : List String) (regionalFallback : Bool) :
    List String × List (String × String) :=
  let st := targetLanguages.foldl (prlStep targetLanguages regionalFallback) ([], [], [])
  (st.2.1, st.1)

example : processRegionalLanguages ["es", "pt-BR", "zh-TW"] true =
    (["es", "pt", "pt-BR", "zh", "zh-TW"], [("pt-BR", "pt"), ("zh-TW", "zh")]) := rfl

example : processRegionalLanguages ["pt", "pt-BR"] true =
    (["pt", "pt-BR"], [("pt-BR", "pt")]) := rfl

/-- The `FallbackInfo` record of `src/index.ts`. -/
structure FallbackInfo where
  used : Bool
  languagesFallbackToSource : List String
  regionalFallbacks : List (String × String)
  keysFallback : List (String × List String)
  deriving DecidableEq, Repr

/-- The `fallbackInfo` accumulator as initialised at the top of `applyFallbacks`. -/
def initialFallbackInfo : FallbackInfo :=
  { used := false, languagesFallbackToSource := [], regionalFallbacks := [], keysFallback := [] }

/-- The translation map (`result`), keyed by language tag.  The
`fallbackInfo` member is modelled as a separate optional component of the
final answer rather than as a colliding string key. -/
abbrev Res := List (String × Value)

/-- The per-missing-key fill loop of Case 2 of `applyFallbacks` (`for (const
key of missingKeys) ...`): try the base language value (read from the live
result map), else the source value, else leave the key unset.  The mutated
translation object is threaded; `none` propagates a `TypeError` from
`setNestedValue` (or an array write outside the value model). -/
def fillKeys (sourceContent : Document) (regionalFallback : Bool)
    (regionalMap : List (String × String)) (result : Res) (lang : String) :
    Value → List String → Option Value
  | t, [] => some t
  | t, key :: rest =>
    let fallbackValue := getNestedKeys (vObj sourceContent) (splitDot key)
    let baseValue : Option Value :=
      if regionalFallback then
        match lookupFirst regionalMap lang with
        | some baseLang =>
          if baseLang = "" then none
          else
            match lookupFirst result baseLang with
            | some bt => if truthy bt then getNestedKeys bt (splitDot key) else none
            | none => none
        | none => none
      else none
    match baseValue with
    | some bv =>
      match setNestedKeys t (splitDot key) bv with
      | some t2 => fillKeys sourceContent regionalFallback regionalMap result lang t2 rest
      | none => none
    | none =>
      match fallbackValue with
      | some fv =>
        match setNestedKeys t (splitDot key) fv with
        | some t2 => fillKeys sourceContent regionalFallback regionalMap result lang t2 rest
        | none => none
      | none => fillKeys sourceContent regionalFallback regionalMap result lang t rest

/-- The Case 1 test of `applyFallbacks`:
`!translation || Object.keys(translation).length === 0`. -/
def wholeMissing (result : Res) (lang : String) : Bool :=
  match lookupFirst result lang with
  | none => true
  | some t => !(truthy t) || (ownKeys t).isEmpty

/-- The regional-fallback test of Case 1: `regionalFallback && regionalMap[lang]`
(a truthy base tag) and a truthy, non-empty base translation in the live
result map.  Returns the base tag and its current entry when it applies. -/
def regionalCandidate (result : Res) (regionalFallback : Bool)
    (regionalMap : List (String × String)) (lang : String) : Option (String × Value) :=
  if regionalFallback then
    match lookupFirst regionalMap lang with
    | some baseLang =>
      if baseLang = "" then none
      else
        match lookupFirst result baseLang with
        | some bt => if truthy bt && !((ownKeys bt).isEmpty) then some (baseLang, bt) else none
        | none => none
    | none => none
  else none

/-- The body of the `for (const lang of targetLanguages)` loop of
`applyFallbacks`: Case 1 (language wholly absent or empty: regional fallback,
else source fallback, else leave as is), Case 2 (missing keys within a
present translation). -/
def processLang (sourceContent : Document) (fallbackToSource regionalFallback : Bool)
    (regionalMap : List (String × String)) (st : Res × FallbackInfo) (lang : String) :
    Option (Res × FallbackInfo) :=
  let (result, info) := st
  let translation := lookupFirst result lang
  if wholeMissing result lang then
    match regionalCandidate result regionalFallback regionalMap lang with
    | some (baseLang, bt) =>
      some (setEntry result lang (vObj (spreadToObj bt)),
        { info with used := true,
                    regionalFallbacks := setEntry info.regionalFallbacks lang baseLang })
    | none =>
      if fallbackToSource then
        some (setEntry result lang (vObj sourceContent),
          { info with used := true,
                      languagesFallbackToSource := info.languagesFallbackToSource ++ [lang] })
      else some (result, info)
  else
    match translation with
    | some t =>
      if fallbackToSource && typeofObject t then
        match findMissingKeys sourceContent t "" with
        | [] => some (result, info)
        | missing =>
          let info2 := { info with used := true,
                                   keysFallback := setEntry info.keysFallback lang missing }
          match fillKeys sourceContent regionalFallback regionalMap result lang t missing with
          | some t2 => some (setEntry result lang t2, info2)
          | none => none
      else some (result, info)
    | none => some (result, info)

/-- `applyFallbacks(result, sourceContent, targetLanguages, sourceLanguage,
fallbackToSource, regionalFallback, fallbackLanguage, regionalMap)` from
`src/index.ts`.  Returns the reconciled translation map together with the
`fallbackInfo` report (attached only when `used` is true); `none` models a
thrown `TypeError`.  Note that `effectiveFallbackLang` is computed exactly as
in the source and then never used. -/
def applyFallbacks (result : Res) (sourceContent : Document)
    (targetLanguages : List String) (sourceLanguage : String)
    (fallbackToSource regionalFallback : Bool) (fallbackLanguage : Option String)
    (regionalMap : List (String × String)) : Option (Res × Option FallbackInfo) :=
  let _effectiveFallbackLang :=
    match fallbackLanguage with
    | some s => if s = "" then sourceLanguage else s
    | none => sourceLanguage
  match targetLanguages.foldlM
      (processLang sourceContent fallbackToSource regionalFallback regionalMap)
      (result, initialFallbackInfo) with
  | some st => some (st.1, if st.2.used then some st.2 else none)
  | none => none

namespace HeapModel

/-!
A heap-accurate model of the same engine, for the array-free fragment
(language entries and their nested values are objects, strings, numbers,
booleans or null).  JS objects live in a store and are passed by reference,
so the shallow copies `{...baseTranslation}` / `{...sourceContent}` made in
Case 1 of `applyFallbacks` share their nested sub-objects with the copied
entry, and the in-place writes of `setNestedValue` are visible through every
alias.  The value model above coincides with this one whenever no object
reachable from two different result entries is mutated; this model is used
exactly where such aliased mutation is the point.  `findMissingKeys`
additionally carries a fuel bound on recursion depth (the stores used here
are finite trees, and the fuel is chosen larger than their depth).
-/

/-- A JS runtime value: scalars, or a reference to an object in the store. -/
inductive HVal where
  | hNull : HVal
  | hStr (s : String) : HVal
  | hNum (n : Int) : HVal
  | hBool (b : Bool) : HVal
  | hRef (a : Nat) : HVal
  deriving DecidableEq, Repr

open HVal

/-- The fields of one heap object, in insertion order. -/
abbrev HObj := List (String × HVal)

/-- The object store: address to fields, plus the next fresh address. -/
structure Store where
  objs : List (Nat × HObj)
  next : Nat
  deriving DecidableEq, Repr

/-- Fields of the object at an address. -/
def heapGet (st : Store) (a : Nat) : HObj :=
  (lookupFirst st.objs a).getD []

/-- Replace the fields of the object at an address (in-place mutation). -/
def heapSet (st : Store) (a : Nat) (o : HObj) : Store :=
  { st with objs := setEntry st.objs a o }

/-- Allocate a fresh object with the given fields. -/
def alloc (st : Store) (o : HObj) : Store × Nat :=
  ({ objs := st.objs ++ [(st.next, o)], next := st.next + 1 }, st.next)

/-- JS truthiness. -/
def truthyH : HVal → Bool
  | hNull => false
  | hStr s => s ≠ ""
  | hNum n => n ≠ 0
  | hBool b => b
  | hRef _ => true

/-- JS `typeof x === "object"`. -/
def typeofObjectH : HVal → Bool
  | hNull => true
  | hRef _ => true
  | _ => false

/-- JS property read `v[k]` (own data properties; strings expose their
character indices and `length`). -/
def jsLookupH (st : Store) : HVal → String → Option HVal
  | hRef a, k => lookupFirst (heapGet st a) k
  | hStr s, k =>
    lookupFirst ((s.data.enum.map fun p => (Nat.repr p.1, hStr (String.mk [p.2]))) ++
      [("length", hNum (Int.ofNat s.length))]) k
  | _, _ => none

/-- JS `Object.keys(v)`. -/
def ownKeysH (st : Store) : HVal → List String
  | hRef a => (heapGet st a).map Prod.fst
  | hStr s => s.data.enum.map fun p => Nat.repr p.1
  | _ => []

/-- JS spread `{...v}` as a fresh field list (nested references shared). -/
def spreadFieldsH (st : Store) : HVal → HObj
  | hRef a => heapGet st a
  | hStr s => s.data.enum.map fun p => (Nat.repr p.1, hStr (String.mk [p.2]))
  | _ => []

/-- One step of the `reduce` in `getNestedValue`, against the store. -/
def getStepH (st : Store) (cur : Option HVal) (k : String) : Option HVal :=
  match cur with
  | some (hRef a) => lookupFirst (heapGet st a) k
  | _ => none

/-- `getNestedValue` on a key list (reads only, store unchanged). -/
def getNestedKeysH (st : Store) (v : HVal) (ks : List String) : Option HVal :=
  ks.foldl (getStepH st) (some v)

/-- `setNestedValue` on a key list, mutating the store: walks every key but
the last, overwriting a missing or non-`object` intermediate with a freshly
allocated `{}`; descending into `null` throws (`none`). -/
def setNestedKeysH : Store → Nat → List String → HVal → Option Store
  | st, a, [k], v => some (heapSet st a (setEntry (heapGet st a) k v))
  | st, a, k :: k2 :: rest, v =>
    (match lookupFirst (heapGet st a) k with
     | some (hRef a2) => setNestedKeysH st a2 (k2 :: rest) v
     | some hNull => none
     | some _ =>
       let p := alloc st []
       setNestedKeysH (heapSet p.1 a (setEntry (heapGet p.1 a) k (hRef p.2))) p.2 (k2 :: rest) v
     | none =>
       let p := alloc st []
       setNestedKeysH (heapSet p.1 a (setEntry (heapGet p.1 a) k (hRef p.2))) p.2 (k2 :: rest) v)
  | _, _, [], _ => none

/-- `findMissingKeys` against the store, with a fuel bound on the recursion
(one unit per field step or descent; large enough for the finite stores used
here). -/
def findMissingKeysH (st : Store) : Nat → HObj → HVal → String → List String
  | 0, _, _, _ => []
  | _ + 1, [], _, _ => []
  | fuel + 1, (k, sv) :: rest, cand, pre =>
    (match jsLookupH st cand k with
     | none => [mkFullKey pre k]
     | some hNull => [mkFullKey pre k]
     | some (hStr "") => [mkFullKey pre k]
     | some tv =>
       match sv with
       | hRef aSv =>
         if typeofObjectH tv then findMissingKeysH st fuel (heapGet st aSv) tv (mkFullKey pre k)
         else []
       | _ => []) ++ findMissingKeysH st fuel rest cand pre

/-- The per-missing-key fill loop of Case 2, mutating the store. -/
def fillKeysH (aSrc : Nat) (regionalFallback : Bool) (rm : List (String × String))
    (res : List (String × HVal)) (lang : String) (aTr : Nat) :
    Store → List String → Option Store
  | st, [] => some st
  | st, key :: rest =>
    let fallbackValue := getNestedKeysH st (hRef aSrc) (splitDot key)
    let baseValue : Option HVal :=
      if regionalFallback then
        match lookupFirst rm lang with
        | some baseLang =>
          if baseLang = "" then none
          else
            match lookupFirst res baseLang with
            | some bt => if truthyH bt then getNestedKeysH st bt (splitDot key) else none
            | none => none
        | none => none
      else none
    match baseValue with
    | some bv =>
      match setNestedKeysH st aTr (splitDot key) bv with
      | some st2 => fillKeysH aSrc regionalFallback rm res lang aTr st2 rest
      | none => none
    | none =>
      match fallbackValue with
      | some fv =>
        match setNestedKeysH st aTr (splitDot key) fv with
        | some st2 => fillKeysH aSrc regionalFallback rm res lang aTr st2 rest
        | none => none
      | none => fillKeysH aSrc regionalFallback rm res lang aTr st rest

/-- The body of the language loop of `applyFallbacks`, against the store.
Note Case 2 mutates the translation object through its reference: the result
map itself is unchanged there. -/
def processLangH (fuel : Nat) (aSrc : Nat) (fallbackToSource regionalFallback : Bool)
    (rm : List (String × String)) (st3 : List (String × HVal) × Store × FallbackInfo)
    (lang : String) : Option (List (String × HVal) × Store × FallbackInfo) :=
  let (res, st, info) := st3
  let translation := lookupFirst res lang
  let isCaseA : Bool :=
    match translation with
    | none => true
    | some t => !(truthyH t) || (ownKeysH st t).isEmpty
  if isCaseA then
    let regional : Option (String × HVal) :=
      if regionalFallback then
        match lookupFirst rm lang with
        | some baseLang =>
          if baseLang = "" then none
          else
            match lookupFirst res baseLang with
            | some bt =>
              if truthyH bt && !((ownKeysH st bt).isEmpty) then some (baseLang, bt) else none
            | none => none
        | none => none
      else none
    match regional with
    | some (baseLang, bt) =>
      let p := alloc st (spreadFieldsH st bt)
      some (setEntry res lang (hRef p.2), p.1,
        { info with used := true,
                    regionalFallbacks := setEntry info.regionalFallbacks lang baseLang })
    | none =>
      if fallbackToSource then
        let p := alloc st (heapGet st aSrc)
        some (setEntry res lang (hRef p.2), p.1,
          { info with used := true,
                      languagesFallbackToSource := info.languagesFallbackToSource ++ [lang] })
      else some (res, st, info)
  else
    match translation with
    | some (hRef aTr) =>
      if fallbackToSource then
        match findMissingKeysH st fuel (heapGet st aSrc) (hRef aTr) "" with
        | [] => some (res, st, info)
        | missing =>
          let info2 := { info with used := true,
                                   keysFallback := setEntry info.keysFallback lang missing }
          match fillKeysH aSrc regionalFallback rm res lang aTr st missing with
          | some st2 => some (res, st2, info2)
          | none => none
      else some (res, st, info)
    | _ => some (res, st, info)

/-- `applyFallbacks` against the store (the unused `sourceLanguage` /
`fallbackLanguage` parameters are dropped; they do not influence the
computation, see the claim about `fallbackLanguage`). -/
def applyFallbacksH (fuel : Nat) (res : List (String × HVal)) (st : Store) (aSrc : Nat)
    (targetLanguages : List String) (fallbackToSource regionalFallback : Bool)
    (rm : List (String × String)) :
    Option (List (String × HVal) × Store × FallbackInfo) :=
  targetLanguages.foldlM (processLangH fuel aSrc fallbackToSource regionalFallback rm)
    (res, st, initialFallbackInfo)

end HeapModel

/-! ## Spec-side and analysis definitions -/

/-- The missing-value test of the Missing-Key Detector, as the spec words it:
the candidate value is absent, `null`, or the empty string. -/
def missingValue : Option Value → Bool
  | none => true
  | some vNull => true
  | some (vStr "") => true
  | some _ => false

/-- The Missing-Key Detector written following the (amended) spec wording:
for each source key in order, if the candidate value is absent/null/empty the
full key is missing; otherwise, if the source value is a non-array document
and the candidate value is any non-null value of `object` type (a document or
an array), recurse; otherwise the key is not missing.  To be compared with
`findMissingKeys`, the definition taken from the source. -/
def findMissingKeysPerSpec : Document → Value → String → List String
  | [], _, _ => []
  | (k, sv) :: rest, cand, pre =>
    (if missingValue (jsLookup cand k) then [mkFullKey pre k]
     else
       match sv, jsLookup cand k with
       | vObj sf, some tv =>
         if truthyObject tv then findMissingKeysPerSpec sf tv (mkFullKey pre k) else []
       | _, _ => []) ++ findMissingKeysPerSpec rest cand pre

/-- The Missing-Key Detector as the original claim words it: recursion
requires the candidate value to be a NON-ARRAY, non-null document-shaped
value; a key whose candidate value is an array is not missing and nothing
under it is reported.  To be compared with `findMissingKeys`. -/
def findMissingKeysClaimed : Document → Value → String → List String
  | [], _, _ => []
  | (k, sv) :: rest, cand, pre =>
    (if missingValue (jsLookup cand k) then [mkFullKey pre k]
     else
       match sv, jsLookup cand k with
       | vObj sf, some (vObj tf) => findMissingKeysClaimed sf (vObj tf) (mkFullKey pre k)
       | _, _ => []) ++ findMissingKeysClaimed rest cand pre

/-- Join a key chain with dots (the inverse of splitting, for dot-free keys). -/
def joinDot : List String → String
  | [] => ""
  | [a] => a
  | a :: rest => a ++ "." ++ joinDot rest

/-- `mkFullKey` lifted to a chain: the dot-path the detector reports for the
chain `ks` reached under the accumulated path `pre`. -/
def joinPre (pre : String) (ks : List String) : String :=
  if pre = "" then joinDot ks else pre ++ "." ++ joinDot ks

/-- The key chain `ks` denotes a position inside the document: every
intermediate key resolves to a plain sub-document and the final key is
present (its value may be anything, including `null` or `""`). -/
def chainIn : Document → List String → Bool
  | doc, [k] => (lookupFirst doc k).isSome
  | doc, k :: k2 :: rest =>
    (match lookupFirst doc k with
     | some (vObj sf) => chainIn sf (k2 :: rest)
     | _ => false)
  | _, [] => false

/-- Well-formedness of a document as produced by `JSON.parse` and addressed
by dot-paths: keys are non-empty, pairwise distinct at each level, and nested
documents are again well-formed. -/
def docWFb : Document → Bool
  | [] => true
  | (k, v) :: rest =>
    (!(k = "")) && !((rest.map Prod.fst).contains k) &&
      (match v with
       | vObj sf => docWFb sf
       | _ => true) && docWFb rest

/-- All key chains of a source document, one per key at every nesting level
(descending only into plain sub-documents, as the detector does). -/
def sourceChains : Document → List (List String)
  | [] => []
  | (k, vObj sf) :: rest => [k] :: ((sourceChains sf).map (k :: ·) ++ sourceChains rest)
  | (k, _) :: rest => [k] :: sourceChains rest

/-- Read a candidate value along a key chain by plain property access. -/
def chainGet (cand : Value) (ks : List String) : Option Value :=
  ks.foldl (fun c k =>
    match c with
    | some x => jsLookup x k
    | none => none) (some cand)

/-- The value is present: neither absent nor `null` nor the empty string. -/
def presentB : Option Value → Bool
  | none => false
  | some vNull => false
  | some (vStr "") => false
  | some _ => true

/-- The candidate contains a present, non-null, non-empty value for every key
of the source document, at every nesting level (the hypothesis of the
idempotence claim). -/
def completeB (src : Document) (cand : Value) : Bool :=
  (sourceChains src).all fun ks => presentB (chainGet cand ks)

/-- The raw entry of a target language is a present, non-empty document that
is complete for the source (the amended idempotence hypothesis). -/
def goodEntryB (src : Document) (raw : Res) (lang : String) : Bool :=
  match lookupFirst raw lang with
  | some (vObj f) => !f.isEmpty && completeB src (vObj f)
  | _ => false

/-- The walk of `setNestedValue` stays inside plain documents: at every
intermediate step the current value is a document, and the next intermediate
is either an existing document or a freshly created `{}` over a missing or
scalar slot — never `null` and never an array. -/
def descentOk : Value → List String → Bool
  | vObj _, [_] => true
  | vObj f, k :: k2 :: rest =>
    descentOk
      (match lookupFirst f k with
       | some x => if typeofObject x then x else vObj []
       | none => vObj []) (k2 :: rest)
  | _, _ => false

/-! ## Basic lemmas -/

theorem lookupFirst_setEntry_self {κ α : Type} [DecidableEq κ]
    (l : List (κ × α)) (k : κ) (v : α) :
    lookupFirst (setEntry l k v) k = some v := by
  induction l with
  | nil => simp [setEntry, lookupFirst]
  | cons p t ih =>
    obtain ⟨k', v'⟩ := p
    by_cases h : k' = k <;> simp [setEntry, lookupFirst, h, ih]

theorem lookupFirst_setEntry_ne {κ α : Type} [DecidableEq κ]
    (l : List (κ × α)) (k k2 : κ) (v : α) (h : k2 ≠ k) :
    lookupFirst (setEntry l k v) k2 = lookupFirst l k2 := by
  have h2 : ¬ k = k2 := fun hh => h hh.symm
  induction l with
  | nil => simp [setEntry, lookupFirst, h2]
  | cons p t ih =>
    obtain ⟨k', v'⟩ := p
    by_cases hk : k' = k
    · subst hk
      simp [setEntry, lookupFirst, h2]
    · simp [setEntry, lookupFirst, hk, ih]

theorem foldl_getStep_none (ks : List String) : ks.foldl getStep none = none := by
  induction ks with
  | nil => rfl
  | cons k ks ih => simpa [getStep] using ih

theorem getNestedKeys_append (v : Value) (ks1 ks2 : List String) :
    getNestedKeys v (ks1 ++ ks2) =
      (match getNestedKeys v ks1 with
       | some w => getNestedKeys w ks2
       | none => none) := by
  unfold getNestedKeys
  rw [List.foldl_append]
  cases h : ks1.foldl getStep (some v) with
  | none => simpa using foldl_getStep_none ks2
  | some w => rfl

theorem getNestedKeys_cons (v : Value) (k : String) (ks : List String) :
    getNestedKeys v (k :: ks) =
      (match getStep (some v) k with
       | some w => getNestedKeys w ks
       | none => none) := by
  show (k :: ks).foldl getStep (some v) = _
  rw [List.foldl_cons]
  cases h : getStep (some v) k with
  | none => simpa using foldl_getStep_none ks
  | some w => rfl

/-! ## Claims -/

/-- Claim C1.  End-to-end reconciliation fixture: with source document
`greeting/farewell`, targets `es, fr, de, pt-BR`, both fallback flags on, and
a raw result with `es` complete, `fr` missing `farewell` and `pt` complete
(no `pt-BR`, no `de`), the reconciled output leaves `es` unchanged, fills
`fr.farewell` with `Goodbye`, sets `de` to the full source document and
`pt-BR` to the `pt` translation, and the attached report has `used = true`,
`de` in `languagesFallbackToSource`, `regionalFallbacks` mapping `pt-BR` to
`pt`, and `keysFallback` for `fr` containing `farewell`. -/
theorem claim_C1_end_to_end :
    applyFallbacks
      [("es", vObj [("greeting", vStr "Hola"), ("farewell", vStr "Adios")]),
       ("fr", vObj [("greeting", vStr "Bonjour")]),
       ("pt", vObj [("greeting", vStr "Ola"), ("farewell", vStr "Adeus")])]
      [("greeting", vStr "Hello"), ("farewell", vStr "Goodbye")]
      ["es", "fr", "de", "pt-BR"] "en" true true none
      (processRegionalLanguages ["es", "fr", "de", "pt-BR"] true).2 =
      some ([("es", vObj [("greeting", vStr "Hola"), ("farewell", vStr "Adios")]),
             ("fr", vObj [("greeting", vStr "Bonjour"), ("farewell", vStr "Goodbye")]),
             ("pt", vObj [("greeting", vStr "Ola"), ("farewell", vStr "Adeus")]),
             ("de", vObj [("greeting", vStr "Hello"), ("farewell", vStr "Goodbye")]),
             ("pt-BR", vObj [("greeting", vStr "Ola"), ("farewell", vStr "Adeus")])],
            some { used := true,
                   languagesFallbackToSource := ["de"],
                   regionalFallbacks := [("pt-BR", "pt")],
                   keysFallback := [("fr", ["farewell"])] }) ∧
    lookupFirst
      [("es", vObj [("greeting", vStr "Hola"), ("farewell", vStr "Adios")]),
       ("fr", vObj [("greeting", vStr "Bonjour"), ("farewell", vStr "Goodbye")]),
       ("pt", vObj [("greeting", vStr "Ola"), ("farewell", vStr "Adeus")]),
       ("de", vObj [("greeting", vStr "Hello"), ("farewell", vStr "Goodbye")]),
       ("pt-BR", vObj [("greeting", vStr "Ola"), ("farewell", vStr "Adeus")])] "pt-BR" =
      lookupFirst
        [("es", vObj [("greeting", vStr "Hola"), ("farewell", vStr "Adios")]),
         ("fr", vObj [("greeting", vStr "Bonjour")]),
         ("pt", vObj [("greeting", vStr "Ola"), ("farewell", vStr "Adeus")])] "pt" :=
  ⟨rfl, rfl⟩

/-- Claim C8.  The `fallbackLanguage` option has no effect on the
reconciliation output: for any two values of the option (including absent)
`applyFallbacks` returns identical final results and identical reports — the
last-resort substitution always copies the source document verbatim. -/
theorem claim_C8_fallbackLanguage_no_effect (result : Res) (sourceContent : Document)
    (targetLanguages : List String) (sourceLanguage : String)
    (fallbackToSource regionalFallback : Bool) (fl1 fl2 : Option String)
    (regionalMap : List (String × String)) :
    applyFallbacks result sourceContent targetLanguages sourceLanguage
      fallbackToSource regionalFallback fl1 regionalMap =
    applyFallbacks result sourceContent targetLanguages sourceLanguage
      fallbackToSource regionalFallback fl2 regionalMap := rfl

/-- Claim C2, counterexample.  The pass reads the live result map, not the
raw pre-pass one: with raw result empty, source `greeting: Hello`, targets
`pt` then `pt-BR` (both fallbacks on, regional map `pt-BR to pt`), `pt` is
first source-filled and `pt-BR` then regional-copies that patched entry even
though the raw result had no `pt` at all; reversing the processing order
changes the report, refuting order-insensitivity. -/
theorem claim_C2_counterexample :
    applyFallbacks [] [("greeting", vStr "Hello")] ["pt", "pt-BR"] "en" true true none
        [("pt-BR", "pt")] =
      some ([("pt", vObj [("greeting", vStr "Hello")]),
             ("pt-BR", vObj [("greeting", vStr "Hello")])],
            some { used := true,
                   languagesFallbackToSource := ["pt"],
                   regionalFallbacks := [("pt-BR", "pt")],
                   keysFallback := [] }) ∧
    applyFallbacks [] [("greeting", vStr "Hello")] ["pt-BR", "pt"] "en" true true none
        [("pt-BR", "pt")] =
      some ([("pt-BR", vObj [("greeting", vStr "Hello")]),
             ("pt", vObj [("greeting", vStr "Hello")])],
            some { used := true,
                   languagesFallbackToSource := ["pt-BR", "pt"],
                   regionalFallbacks := [],
                   keysFallback := [] }) ∧
    lookupFirst ([] : Res) "pt" = none ∧
    ({ used := true, languagesFallbackToSource := ["pt"],
       regionalFallbacks := [("pt-BR", "pt")], keysFallback := [] } : FallbackInfo) ≠
      { used := true, languagesFallbackToSource := ["pt-BR", "pt"],
        regionalFallbacks := [], keysFallback := [] } :=
  ⟨rfl, rfl, rfl, by decide⟩

/-- Claim C3, counterexample.  With an empty source document, a raw entry that
is a present-but-empty document (vacuously) contains every source key, yet the
pass treats it as wholly missing, source-fills it and attaches a report. -/
theorem claim_C3_counterexample :
    completeB ([] : Document) (vObj []) = true ∧
    applyFallbacks [("es", vObj [])] [] ["es"] "en" true true none [] =
      some ([("es", vObj [])],
            some { used := true, languagesFallbackToSource := ["es"],
                   regionalFallbacks := [], keysFallback := [] }) :=
  ⟨by simp [completeB, sourceChains], rfl⟩

/-- Claim C4, counterexample.  A raw entry that is a present-but-empty
document, with both fallbacks unavailable, survives into the final result:
the pass does not delete it, contradicting `no entry at all`. -/
theorem claim_C4_counterexample :
    applyFallbacks [("de", vObj [])] [("greeting", vStr "Hello")] ["de"] "en"
        false false none [] =
      some ([("de", vObj [])], none) ∧
    lookupFirst [("de", vObj ([] : List (String × Value)))] "de" = some (vObj []) :=
  ⟨rfl, rfl⟩

/-- Claim C5, counterexample.  When the source value is a non-array document
and the candidate value is an ARRAY, the detector does recurse into it
(arrays pass the `typeof = "object"` test) and reports keys under it:
for source `a: (b: x)` and candidate `a: []` it reports `a.b`, while the
behaviour worded in the claim (`findMissingKeysClaimed`) reports nothing. -/
theorem claim_C5_counterexample :
    findMissingKeys [("a", vObj [("b", vStr "x")])] (vObj [("a", vArr [])]) "" = ["a.b"] ∧
    findMissingKeysClaimed [("a", vObj [("b", vStr "x")])] (vObj [("a", vArr [])]) "" = [] :=
  ⟨rfl, rfl⟩

/-- Claim C6, counterexample.  `setNestedValue` does NOT succeed for every
input: a `null` at an intermediate position is not overwritten (it passes the
`typeof = "object"` test) and the subsequent step throws a `TypeError`,
modelled as `none`. -/
theorem claim_C6_counterexample :
    setNestedValue [("a", vNull)] "a.b" (vStr "v") = none := rfl

/-- Claim C7, counterexample.  `getNestedValue` does not return absent for
every non-document intermediate: an array intermediate is traversed like an
object (element indices and `length` are valid keys), so `a.0` resolves
through the array value of `a`. -/
theorem claim_C7_counterexample :
    getNestedValue [("a", vArr [vStr "x"])] "a.0" = some (vStr "x") ∧
    getNestedValue [("a", vArr [vStr "x"])] "a.length" = some (vNum 1) :=
  ⟨rfl, rfl⟩

/-- Claim C9, counterexample.  A reported path need not resolve in the source
to a non-null, non-empty value: a key whose source value is `null` is still
reported missing when the candidate lacks it, and it resolves in the source
to `null`. -/
theorem claim_C9_counterexample :
    findMissingKeys [("a", vNull)] (vObj []) "" = ["a"] ∧
    getNestedValue [("a", vNull)] "a" = some vNull :=
  ⟨rfl, rfl⟩

/-- Claim C10, counterexample (heap model).  With duplicate targets
`pt-BR, pt-BR`, raw `pt` (a non-target entry, object 2 with sub-object 3)
present but incomplete: the first pass shallow-copies `pt` into `pt-BR`
(sharing sub-object 3), the second pass fills the missing key `a.x` through
that alias, mutating the non-target `pt` entry in place — it is not carried
through unchanged. -/
theorem claim_C10_counterexample :
    HeapModel.applyFallbacksH 100 [("pt", HeapModel.HVal.hRef 2)]
      { objs := [(0, [("a", HeapModel.HVal.hRef 1)]),
                 (1, [("x", HeapModel.HVal.hStr "X")]),
                 (2, [("a", HeapModel.HVal.hRef 3)]),
                 (3, [])], next := 4 }
      0 ["pt-BR", "pt-BR"] true true [("pt-BR", "pt")] =
      some ([("pt", HeapModel.HVal.hRef 2), ("pt-BR", HeapModel.HVal.hRef 4)],
            { objs := [(0, [("a", HeapModel.HVal.hRef 1)]),
                       (1, [("x", HeapModel.HVal.hStr "X")]),
                       (2, [("a", HeapModel.HVal.hRef 3)]),
                       (3, [("x", HeapModel.HVal.hStr "X")]),
                       (4, [("a", HeapModel.HVal.hRef 3)])], next := 5 },
            { used := true, languagesFallbackToSource := [],
              regionalFallbacks := [("pt-BR", "pt")],
              keysFallback := [("pt-BR", ["a.x"])] }) ∧
    HeapModel.getNestedKeysH
      { objs := [(0, [("a", HeapModel.HVal.hRef 1)]),
                 (1, [("x", HeapModel.HVal.hStr "X")]),
                 (2, [("a", HeapModel.HVal.hRef 3)]),
                 (3, [])], next := 4 }
      (HeapModel.HVal.hRef 2) ["a", "x"] = none ∧
    HeapModel.getNestedKeysH
      { objs := [(0, [("a", HeapModel.HVal.hRef 1)]),
                 (1, [("x", HeapModel.HVal.hStr "X")]),
                 (2, [("a", HeapModel.HVal.hRef 3)]),
                 (3, [("x", HeapModel.HVal.hStr "X")]),
                 (4, [("a", HeapModel.HVal.hRef 3)])], next := 5 }
      (HeapModel.HVal.hRef 2) ["a", "x"] = some (HeapModel.HVal.hStr "X") ∧
    ¬ ("pt" ∈ ["pt-BR", "pt-BR"]) :=
  ⟨rfl, rfl, rfl, by decide⟩

/-- Unfolding of `findMissingKeys` on a cons cell: the three missing tests
(`undefined`, `null`, empty string) collapse into `missingValue`. -/
theorem findMissingKeys_cons (k : String) (sv : Value) (rest : Document)
    (cand : Value) (pre : String) :
    findMissingKeys ((k, sv) :: rest) cand pre =
      (if missingValue (jsLookup cand k) then [mkFullKey pre k]
       else
         match sv, jsLookup cand k with
         | vObj sf, some tv =>
           if truthyObject tv then findMissingKeys sf tv (mkFullKey pre k) else []
         | _, _ => []) ++ findMissingKeys rest cand pre := by
  cases hjl : jsLookup cand k with
  | none => simp [findMissingKeys, hjl, missingValue]
  | some tv =>
    cases tv with
    | vNull => simp [findMissingKeys, hjl, missingValue]
    | vStr s =>
      by_cases hs : s = ""
      · subst hs; simp [findMissingKeys, hjl, missingValue]
      · cases sv <;> simp [findMissingKeys, hjl, missingValue, hs]
    | vNum n => cases sv <;> simp [findMissingKeys, hjl, missingValue]
    | vBool b => cases sv <;> simp [findMissingKeys, hjl, missingValue]
    | vArr xs => cases sv <;> simp [findMissingKeys, hjl, missingValue]
    | vObj fs => cases sv <;> simp [findMissingKeys, hjl, missingValue]

/-- Unfolding of `findMissingKeysPerSpec` on a cons cell. -/
theorem findMissingKeysPerSpec_cons (k : String) (sv : Value) (rest : Document)
    (cand : Value) (pre : String) :
    findMissingKeysPerSpec ((k, sv) :: rest) cand pre =
      (if missingValue (jsLookup cand k) then [mkFullKey pre k]
       else
         match sv, jsLookup cand k with
         | vObj sf, some tv =>
           if truthyObject tv then findMissingKeysPerSpec sf tv (mkFullKey pre k) else []
         | _, _ => []) ++ findMissingKeysPerSpec rest cand pre := by
  rw [findMissingKeysPerSpec.eq_def]

/-- Claim C5, amended.  In the Missing-Key Detector, for a source key whose
candidate value is present, non-null and non-empty, recursion happens exactly
when the source value is a non-array document AND the candidate value is any
non-null value of `object` type — a document OR an array; in every other such
case the key is not reported and nothing under it is reported.  Stated as the
equality of the source function with `findMissingKeysPerSpec`, the detector
written following that (amended) wording. -/
theorem claim_C5_amended (src : Document) (cand : Value) (pre : String) :
    findMissingKeys src cand pre = findMissingKeysPerSpec src cand pre := by
  have H : ∀ (n : Nat) (src : Document), sizeOf src <= n → ∀ (cand : Value) (pre : String),
      findMissingKeys src cand pre = findMissingKeysPerSpec src cand pre := by
    intro n
    induction n with
    | zero =>
      intro src hs cand pre
      match src with
      | [] => rfl
      | (k, sv) :: rest =>
        exfalso
        simp [List.cons.sizeOf_spec] at hs
    | succ n ih =>
      intro src hs cand pre
      match src with
      | [] => rfl
      | (k, sv) :: rest =>
        have h1 : sizeOf rest <= n := by
          simp [List.cons.sizeOf_spec] at hs
          omega
        have h2 : sizeOf sv <= n := by
          simp [List.cons.sizeOf_spec, Prod.mk.sizeOf_spec] at hs
          omega
        clear hs
        rw [findMissingKeys_cons, findMissingKeysPerSpec_cons]
        rw [ih rest h1 cand pre]
        congr 1
        by_cases hm : missingValue (jsLookup cand k) = true
        · simp [hm]
        · simp only [if_neg hm]
          cases sv with
          | vObj sf =>
            cases hjl : jsLookup cand k with
            | none => simp
            | some tv =>
              have h3 : sizeOf sf <= n := by
                simp [Value.vObj.sizeOf_spec] at h2
                omega
              simp [ih sf h3 tv (mkFullKey pre k)]
          | vNull => cases jsLookup cand k <;> simp
          | vStr s => cases jsLookup cand k <;> simp
          | vNum m => cases jsLookup cand k <;> simp
          | vBool b => cases jsLookup cand k <;> simp
          | vArr xs => cases jsLookup cand k <;> simp
  exact H (sizeOf src) src le_rfl cand pre

/-- Claim C7, amended.  `getNestedValue` never throws (it is total), and it
returns absent whenever an intermediate key along the path is missing or an
intermediate value is `null` or a non-object scalar; an ARRAY intermediate,
however, is traversed like an object (element indices and `length`), see the
counterexample.  Stated on the key-list core of the accessor: once the walk
has produced `undefined`, or a value that is not a truthy object, every
extension of the path is absent. -/
theorem claim_C7_amended (doc : Document) (ks1 : List String) (k : String) (ks2 : List String)
    (h : getNestedKeys (vObj doc) ks1 = none ∨
         ∃ w, getNestedKeys (vObj doc) ks1 = some w ∧ truthyObject w = false) :
    getNestedKeys (vObj doc) (ks1 ++ k :: ks2) = none := by
  rcases h with h | ⟨w, hw, hwo⟩
  · rw [getNestedKeys_append, h]
  · rw [getNestedKeys_append, hw]
    show getNestedKeys w (k :: ks2) = none
    rw [getNestedKeys_cons]
    simp [getStep, hwo]

/-- Witness for the amended claim C7 at a concrete input: the walk reaches
the scalar `hi`, so the extended path is absent. -/
theorem claim_C7_amended_witness :
    (getNestedKeys (vObj [("a", vStr "hi")]) ["a"] = some (vStr "hi") ∧
     truthyObject (vStr "hi") = false) ∧
    getNestedKeys (vObj [("a", vStr "hi")]) (["a"] ++ "b" :: []) = none :=
  ⟨⟨rfl, rfl⟩, claim_C7_amended [("a", vStr "hi")] ["a"] "b" []
    (Or.inr ⟨vStr "hi", rfl, rfl⟩)⟩

/-- The value `setNestedValue` walks into at one intermediate key: the stored
value when it has `typeof = "object"`, else a fresh empty document. -/
def stepTarget (f : List (String × Value)) (k : String) : Value :=
  match lookupFirst f k with
  | some x => if typeofObject x then x else vObj []
  | none => vObj []

theorem descentOk_cons2 (f : List (String × Value)) (k k2 : String) (rest : List String) :
    descentOk (vObj f) (k :: k2 :: rest) = descentOk (stepTarget f k) (k2 :: rest) := rfl

theorem setNestedKeys_cons2 (f : List (String × Value)) (k k2 : String) (rest : List String)
    (v : Value) :
    setNestedKeys (vObj f) (k :: k2 :: rest) v =
      (match setNestedKeys (stepTarget f k) (k2 :: rest) v with
       | some sub => some (vObj (setEntry f k sub))
       | none => none) := rfl

/-- Core of the amended claim C6, on key lists: when the walk of
`setNestedValue` only meets documents (existing sub-documents, or scalar or
missing slots that it overwrites with `{}`), it succeeds, the final key then
holds exactly the given value, and every intermediate position holds a
document. -/
theorem setNestedKeys_ok (ks : List String) (f : List (String × Value)) (v : Value)
    (h : descentOk (vObj f) ks = true) :
    ∃ g, setNestedKeys (vObj f) ks v = some (vObj g) ∧
      getNestedKeys (vObj g) ks = some v ∧
      (∀ ks1 k2 ks2, ks = ks1 ++ k2 :: ks2 → ks2 ≠ [] →
        ∃ gg, getNestedKeys (vObj g) (ks1 ++ [k2]) = some (vObj gg)) := by
  induction ks generalizing f v with
  | nil => simp [descentOk] at h
  | cons k rest ih =>
    cases rest with
    | nil =>
      refine ⟨setEntry f k v, rfl, ?_, ?_⟩
      · simp [getNestedKeys, getStep, truthyObject, jsLookup, lookupFirst_setEntry_self]
      · intro ks1 k2 ks2 heq hne
        rcases ks1 with _ | ⟨a, ks1'⟩
        · cases ks2 with
          | nil => exact absurd rfl hne
          | cons b bs => simp at heq
        · simp at heq
    | cons k2 rest2 =>
      rw [descentOk_cons2] at h
      rcases hst : stepTarget f k with _ | s | n | b | xs | f2
      · rw [hst] at h; simp [descentOk] at h
      · rw [hst] at h; simp [descentOk] at h
      · rw [hst] at h; simp [descentOk] at h
      · rw [hst] at h; simp [descentOk] at h
      · rw [hst] at h; simp [descentOk] at h
      · rw [hst] at h
        obtain ⟨g2, hset, hget, hint⟩ := ih f2 v h
        refine ⟨setEntry f k (vObj g2), ?_, ?_, ?_⟩
        · rw [setNestedKeys_cons2, hst, hset]
        · rw [getNestedKeys_cons]
          simp only [getStep, truthyObject, jsLookup, lookupFirst_setEntry_self]
          exact hget
        · intro ks1 k3 ks2 heq hne
          cases ks1 with
          | nil =>
            simp only [List.nil_append] at heq
            obtain ⟨rfl, rfl⟩ : k3 = k ∧ ks2 = k2 :: rest2 :=
              ⟨(List.cons.injEq _ _ _ _ ▸ heq).1.symm, ((List.cons.injEq _ _ _ _ ▸ heq).2).symm⟩
            refine ⟨g2, ?_⟩
            simp [getNestedKeys, getStep, truthyObject, jsLookup, lookupFirst_setEntry_self]
          | cons a ks1' =>
            rw [List.cons_append] at heq
            injection heq with hka htl
            subst hka
            obtain ⟨gg, hgg⟩ := hint ks1' k3 ks2 htl hne
            refine ⟨gg, ?_⟩
            rw [List.cons_append, getNestedKeys_cons]
            simp only [getStep, truthyObject, jsLookup, lookupFirst_setEntry_self]
            exact hgg

/-- Claim C6, amended.  `set(document, path, value)` walks and creates
intermediate documents, overwriting scalar (string/number/boolean)
intermediates with an empty document, and then assigns the value at the final
key — PROVIDED no intermediate position holds `null` or an array: a `null`
intermediate passes the `typeof = "object"` guard, is descended into, and the
next step throws (see the counterexample); an array intermediate is likewise
descended into and mutated rather than replaced.  Under that proviso
(`descentOk`), set succeeds, every intermediate position of the result holds
a document, and the final key holds exactly the given value. -/
theorem claim_C6_amended (obj : Document) (path : String) (v : Value)
    (h : descentOk (vObj obj) (splitDot path) = true) :
    ∃ obj2, setNestedValue obj path v = some obj2 ∧
      getNestedValue obj2 path = some v ∧
      (∀ ks1 k ks2, splitDot path = ks1 ++ k :: ks2 → ks2 ≠ [] →
        ∃ g, getNestedKeys (vObj obj2) (ks1 ++ [k]) = some (vObj g)) := by
  obtain ⟨g, hset, hget, hint⟩ := setNestedKeys_ok (splitDot path) obj v h
  refine ⟨g, ?_, ?_, hint⟩
  · simp [setNestedValue, hset]
  · simpa [getNestedValue] using hget

/-- Witness for the amended claim C6 at a concrete input: writing `b.c` over
a scalar `b` succeeds and replaces the scalar with a document. -/
theorem claim_C6_amended_witness :
    descentOk (vObj [("a", vObj []), ("b", vStr "s")]) (splitDot "b.c") = true ∧
    ∃ obj2, setNestedValue [("a", vObj []), ("b", vStr "s")] "b.c" (vStr "v") = some obj2 ∧
      getNestedValue obj2 "b.c" = some (vStr "v") ∧
      (∀ ks1 k ks2, splitDot "b.c" = ks1 ++ k :: ks2 → ks2 ≠ [] →
        ∃ g, getNestedKeys (vObj obj2) (ks1 ++ [k]) = some (vObj g)) :=
  ⟨rfl, claim_C6_amended [("a", vObj []), ("b", vStr "s")] "b.c" (vStr "v") rfl⟩

theorem joinDot_cons (a : String) (l : List String) (h : l ≠ []) :
    joinDot (a :: l) = a ++ "." ++ joinDot l := by
  cases l with
  | nil => exact absurd rfl h
  | cons b bs => rfl

theorem append_dot_ne_empty (a b : String) : a ++ "." ++ b ≠ "" := by
  intro h
  have hlen := congrArg String.length h
  have h1 : (".").length = 1 := rfl
  have h2 : ("" : String).length = 0 := rfl
  simp [String.length_append, h1, h2] at hlen

theorem mkFullKey_ne_empty (pre k : String) (hk : k ≠ "") : mkFullKey pre k ≠ "" := by
  by_cases hpre : pre = ""
  · simpa [mkFullKey, hpre] using hk
  · simpa [mkFullKey, hpre] using append_dot_ne_empty pre k

theorem joinPre_single (pre k : String) : joinPre pre [k] = mkFullKey pre k := by
  simp [joinPre, joinDot, mkFullKey]

theorem joinPre_step (pre k : String) (ks : List String) (hk : k ≠ "") (hks : ks ≠ []) :
    joinPre (mkFullKey pre k) ks = joinPre pre (k :: ks) := by
  have hfk : mkFullKey pre k ≠ "" := mkFullKey_ne_empty pre k hk
  by_cases hpre : pre = ""
  · subst hpre
    simp [joinPre, mkFullKey, hk, hfk, joinDot_cons _ _ hks]
  · have hfk2 : pre ++ ("." ++ k) ≠ "" := by
      rw [← String.append_assoc]
      exact append_dot_ne_empty pre k
    simp [joinPre, mkFullKey, hpre, hfk2, joinDot_cons _ _ hks, String.append_assoc]

theorem lookupFirst_isSome_mem {α : Type} (l : List (String × α)) (k : String)
    (h : (lookupFirst l k).isSome = true) : k ∈ l.map Prod.fst := by
  induction l with
  | nil => simp [lookupFirst] at h
  | cons p t ih =>
    obtain ⟨k', v'⟩ := p
    by_cases hk : k' = k
    · subst hk; simp
    · simp only [lookupFirst, if_neg hk] at h
      exact List.mem_cons_of_mem _ (ih h)

theorem chainIn_head (ks : List String) (doc : Document) (h : chainIn doc ks = true) :
    ∃ k' ks', ks = k' :: ks' ∧ (lookupFirst doc k').isSome = true := by
  cases ks with
  | nil => simp [chainIn] at h
  | cons k' ks' =>
    refine ⟨k', ks', rfl, ?_⟩
    cases ks' with
    | nil => simpa [chainIn] using h
    | cons k2 r =>
      cases hl : lookupFirst doc k' with
      | none => simp [chainIn, hl] at h
      | some x => simp [hl]

theorem chainIn_cons_of_ne (k k' : String) (sv : Value) (rest : Document) (ks' : List String)
    (hk : k' ≠ k) (h : chainIn rest (k' :: ks') = true) :
    chainIn ((k, sv) :: rest) (k' :: ks') = true := by
  have hkk : ¬ k = k' := fun hh => hk hh.symm
  cases ks' with
  | nil => simpa [chainIn, lookupFirst, hkk] using h
  | cons k2 r => simpa [chainIn, lookupFirst, hkk] using h

/-- Unfolding of `docWFb` on a cons cell. -/
theorem docWFb_cons (k : String) (sv : Value) (rest : Document) :
    docWFb ((k, sv) :: rest) =
      ((!(k = "")) && !((rest.map Prod.fst).contains k) &&
        (match sv with
         | vObj sf => docWFb sf
         | _ => true) && docWFb rest) := by
  rw [docWFb.eq_def]

/-- Every dot-path reported by the Missing-Key Detector is the dot-join of a
key chain that denotes a position inside the source document (assuming the
source is a well-formed JSON document: non-empty, pairwise distinct keys). -/
theorem findMissingKeys_resolves :
    ∀ (src : Document) (cand : Value) (pre : String) (p : String),
      docWFb src = true → p ∈ findMissingKeys src cand pre →
      ∃ ks, ks ≠ [] ∧ p = joinPre pre ks ∧ chainIn src ks = true := by
  have H : ∀ (n : Nat) (src : Document), sizeOf src <= n →
      ∀ (cand : Value) (pre : String) (p : String),
      docWFb src = true → p ∈ findMissingKeys src cand pre →
      ∃ ks, ks ≠ [] ∧ p = joinPre pre ks ∧ chainIn src ks = true := by
    intro n
    induction n with
    | zero =>
      intro src hs cand pre p hwf hp
      match src with
      | [] => simp [findMissingKeys] at hp
      | (k, sv) :: rest =>
        exfalso
        simp [List.cons.sizeOf_spec] at hs
    | succ n ih =>
      intro src hs cand pre p hwf hp
      match src with
      | [] => simp [findMissingKeys] at hp
      | (k, sv) :: rest =>
        have h1 : sizeOf rest <= n := by
          simp [List.cons.sizeOf_spec] at hs
          omega
        have h2 : sizeOf sv <= n := by
          simp [List.cons.sizeOf_spec, Prod.mk.sizeOf_spec] at hs
          omega
        clear hs
        rw [docWFb_cons] at hwf
        simp only [Bool.and_eq_true] at hwf
        obtain ⟨⟨⟨hk, hnd⟩, hsv⟩, hrest⟩ := hwf
        have hkne : ¬ (k = "") := by simpa using hk
        have hndm : ¬ (k ∈ rest.map Prod.fst) := by simpa using hnd
        rw [findMissingKeys_cons] at hp
        rcases List.mem_append.1 hp with hp1 | hp2
        · by_cases hm : missingValue (jsLookup cand k) = true
          · rw [if_pos hm] at hp1
            simp at hp1
            subst hp1
            refine ⟨[k], List.cons_ne_nil _ _, (joinPre_single pre k).symm, ?_⟩
            simp [chainIn, lookupFirst]
          · rw [if_neg hm] at hp1
            cases sv with
            | vObj sf =>
              cases hjl : jsLookup cand k with
              | none => rw [hjl] at hp1; simp at hp1
              | some tv =>
                rw [hjl] at hp1
                have hp2 : p ∈ (if truthyObject tv = true
                    then findMissingKeys sf tv (mkFullKey pre k) else []) := hp1
                by_cases htv : truthyObject tv = true
                · rw [if_pos htv] at hp2
                  obtain ⟨ks', hne', hp', hch'⟩ :=
                    ih sf (by simp [Value.vObj.sizeOf_spec] at h2; omega) tv (mkFullKey pre k) p
                      hsv hp2
                  refine ⟨k :: ks', List.cons_ne_nil _ _, ?_, ?_⟩
                  · rw [hp', joinPre_step pre k ks' hkne hne']
                  · cases ks' with
                    | nil => exact absurd rfl hne'
                    | cons k2 r => simpa [chainIn, lookupFirst] using hch'
                · rw [if_neg htv] at hp2; simp at hp2
            | vNull => simp at hp1
            | vStr s => simp at hp1
            | vNum m => simp at hp1
            | vBool b => simp at hp1
            | vArr xs => simp at hp1
        · obtain ⟨ks, hne, hp', hch⟩ := ih rest h1 cand pre p hrest hp2
          obtain ⟨k', ks', rfl, hsome⟩ := chainIn_head ks rest hch
          have hmem : k' ∈ rest.map Prod.fst := lookupFirst_isSome_mem rest k' hsome
          have hkk : k' ≠ k := by
            intro hh
            subst hh
            exact hndm hmem
          exact ⟨k' :: ks', hne, hp', chainIn_cons_of_ne k k' sv rest ks' hkk hch⟩
  intro src cand pre p hwf hp
  exact H (sizeOf src) src le_rfl cand pre p hwf hp

/-- A chain denoting a position in a document is reachable by the nested-path
accessor. -/
theorem chainIn_getNestedKeys : ∀ (ks : List String) (src : Document),
    chainIn src ks = true → (getNestedKeys (vObj src) ks).isSome = true := by
  intro ks
  induction ks with
  | nil => intro src h; simp [chainIn] at h
  | cons k rest ih =>
    intro src h
    cases rest with
    | nil =>
      have h' : (lookupFirst src k).isSome = true := by simpa [chainIn] using h
      simpa [getNestedKeys, getStep, truthyObject, jsLookup] using h'
    | cons k2 r =>
      cases hl : lookupFirst src k with
      | none => simp [chainIn, hl] at h
      | some x =>
        cases x with
        | vObj sf =>
          have h' : chainIn sf (k2 :: r) = true := by simpa [chainIn, hl] using h
          rw [getNestedKeys_cons]
          simpa [getStep, truthyObject, jsLookup, hl] using ih sf h'
        | vNull => simp [chainIn, hl] at h
        | vStr s => simp [chainIn, hl] at h
        | vNum m => simp [chainIn, hl] at h
        | vBool b => simp [chainIn, hl] at h
        | vArr xs => simp [chainIn, hl] at h

/-- Claim C9, amended.  For a well-formed source document (non-empty,
pairwise distinct keys at every level), every dot-path returned by the
Missing-Key Detector addresses a position that is PRESENT in the source: the
path is the dot-join of a key chain that resolves in the source through plain
sub-documents to a defined value.  That value, however, may be `null` or the
empty string (see the counterexample), and for sources with empty or dotted
keys the reported string may not resolve at all, which is why the conclusion
is stated on the underlying key chain. -/
theorem claim_C9_amended (src : Document) (cand : Value) (p : String)
    (hwf : docWFb src = true) (hp : p ∈ findMissingKeys src cand "") :
    ∃ ks, ks ≠ [] ∧ p = joinDot ks ∧ chainIn src ks = true ∧
      (getNestedKeys (vObj src) ks).isSome = true := by
  obtain ⟨ks, hne, hp', hch⟩ := findMissingKeys_resolves src cand "" p hwf hp
  exact ⟨ks, hne, by simpa [joinPre] using hp', hch, chainIn_getNestedKeys ks src hch⟩

/-- Witness for the amended claim C9 at a concrete input. -/
theorem claim_C9_amended_witness :
    docWFb [("a", vNull)] = true ∧
    "a" ∈ findMissingKeys [("a", vNull)] (vObj []) "" ∧
    ∃ ks, ks ≠ [] ∧ ("a" : String) = joinDot ks ∧ chainIn [("a", vNull)] ks = true ∧
      (getNestedKeys (vObj [("a", vNull)]) ks).isSome = true :=
  ⟨by simp [docWFb], by decide,
    claim_C9_amended [("a", vNull)] (vObj []) "a" (by simp [docWFb]) (by decide)⟩

/-- A value is present exactly when it is not missing. -/
theorem presentB_not_missing (o : Option Value) : presentB o = !(missingValue o) := by
  cases o with
  | none => rfl
  | some v =>
    cases v with
    | vStr s =>
      by_cases hs : s = ""
      · subst hs; rfl
      · simp [presentB, missingValue, hs]
    | vNull => rfl
    | vNum n => rfl
    | vBool b => rfl
    | vArr xs => rfl
    | vObj fs => rfl

/-- Reading along a chain descends one resolved key at a time. -/
theorem chainGet_cons_some (cand t : Value) (k : String) (ks : List String)
    (h : jsLookup cand k = some t) : chainGet cand (k :: ks) = chainGet t ks := by
  simp [chainGet, List.foldl_cons, h]

/-- Unfolding of `sourceChains` on a cons cell. -/
theorem sourceChains_cons (k : String) (sv : Value) (rest : Document) :
    sourceChains ((k, sv) :: rest) =
      (match sv with
       | vObj sf => [k] :: ((sourceChains sf).map (k :: ·) ++ sourceChains rest)
       | _ => [k] :: sourceChains rest) := by
  rw [sourceChains.eq_def]
  cases sv <;> rfl

/-- A candidate that contains a present, non-null, non-empty value at every
source key chain has no missing keys. -/
theorem completeB_no_missing :
    ∀ (src : Document) (cand : Value) (pre : String),
      completeB src cand = true → findMissingKeys src cand pre = [] := by
  have H : ∀ (n : Nat) (src : Document), sizeOf src <= n →
      ∀ (cand : Value) (pre : String),
      completeB src cand = true → findMissingKeys src cand pre = [] := by
    intro n
    induction n with
    | zero =>
      intro src hs cand pre h
      match src with
      | [] => rfl
      | (k, sv) :: rest =>
        exfalso
        simp [List.cons.sizeOf_spec] at hs
    | succ n ih =>
      intro src hs cand pre h
      match src with
      | [] => rfl
      | (k, sv) :: rest =>
        have h1 : sizeOf rest <= n := by
          simp [List.cons.sizeOf_spec] at hs
          omega
        have h2 : sizeOf sv <= n := by
          simp [List.cons.sizeOf_spec, Prod.mk.sizeOf_spec] at hs
          omega
        clear hs
        simp only [completeB] at h
        rw [sourceChains_cons] at h
        rw [findMissingKeys_cons]
        cases sv with
        | vObj sf =>
          simp only [List.all_cons, List.all_append, List.all_map, List.all_eq_true,
            Bool.and_eq_true, Function.comp] at h
          obtain ⟨hpk0, hsub, hrestC⟩ := h
          have hpk : presentB (jsLookup cand k) = true := hpk0
          have hm : missingValue (jsLookup cand k) = false := by
            simpa [presentB_not_missing] using hpk
          rw [if_neg (by simp [hm])]
          cases hjl : jsLookup cand k with
          | none => simp [presentB, hjl] at hpk
          | some tv =>
            have hrest : findMissingKeys rest cand pre = [] := by
              apply ih rest h1 cand pre
              simp only [completeB, List.all_eq_true]
              exact hrestC
            show (if truthyObject tv = true
                then findMissingKeys sf tv (mkFullKey pre k) else []) ++
              findMissingKeys rest cand pre = []
            by_cases htv : truthyObject tv = true
            · rw [if_pos htv, hrest]
              have hcB : completeB sf tv = true := by
                simp only [completeB, List.all_eq_true]
                intro ks hks
                have hx := hsub ks hks
                rwa [chainGet_cons_some cand tv k ks hjl] at hx
              rw [ih sf (by simp [Value.vObj.sizeOf_spec] at h2; omega) tv (mkFullKey pre k) hcB]
              rfl
            · rw [if_neg htv, hrest]
              rfl
        | vNull =>
          simp only [List.all_cons, List.all_eq_true, Bool.and_eq_true] at h
          obtain ⟨hpk0, hrestC⟩ := h
          have hm : missingValue (jsLookup cand k) = false := by
            simpa [presentB_not_missing] using hpk0
          rw [if_neg (by simp [hm])]
          have hrest : findMissingKeys rest cand pre = [] := by
            apply ih rest h1 cand pre
            simp only [completeB, List.all_eq_true]
            exact hrestC
          cases hjl : jsLookup cand k <;> simp [hrest]
        | vStr s =>
          simp only [List.all_cons, List.all_eq_true, Bool.and_eq_true] at h
          obtain ⟨hpk0, hrestC⟩ := h
          have hm : missingValue (jsLookup cand k) = false := by
            simpa [presentB_not_missing] using hpk0
          rw [if_neg (by simp [hm])]
          have hrest : findMissingKeys rest cand pre = [] := by
            apply ih rest h1 cand pre
            simp only [completeB, List.all_eq_true]
            exact hrestC
          cases hjl : jsLookup cand k <;> simp [hrest]
        | vNum m =>
          simp only [List.all_cons, List.all_eq_true, Bool.and_eq_true] at h
          obtain ⟨hpk0, hrestC⟩ := h
          have hm : missingValue (jsLookup cand k) = false := by
            simpa [presentB_not_missing] using hpk0
          rw [if_neg (by simp [hm])]
          have hrest : findMissingKeys rest cand pre = [] := by
            apply ih rest h1 cand pre
            simp only [completeB, List.all_eq_true]
            exact hrestC
          cases hjl : jsLookup cand k <;> simp [hrest]
        | vBool b =>
          simp only [List.all_cons, List.all_eq_true, Bool.and_eq_true] at h
          obtain ⟨hpk0, hrestC⟩ := h
          have hm : missingValue (jsLookup cand k) = false := by
            simpa [presentB_not_missing] using hpk0
          rw [if_neg (by simp [hm])]
          have hrest : findMissingKeys rest cand pre = [] := by
            apply ih rest h1 cand pre
            simp only [completeB, List.all_eq_true]
            exact hrestC
          cases hjl : jsLookup cand k <;> simp [hrest]
        | vArr xs =>
          simp only [List.all_cons, List.all_eq_true, Bool.and_eq_true] at h
          obtain ⟨hpk0, hrestC⟩ := h
          have hm : missingValue (jsLookup cand k) = false := by
            simpa [presentB_not_missing] using hpk0
          rw [if_neg (by simp [hm])]
          have hrest : findMissingKeys rest cand pre = [] := by
            apply ih rest h1 cand pre
            simp only [completeB, List.all_eq_true]
            exact hrestC
          cases hjl : jsLookup cand k <;> simp [hrest]
  intro src cand pre h
  exact H (sizeOf src) src le_rfl cand pre h

/-- Claim C3, amended.  Idempotence of complete translations: when every
requested target language has a raw entry that is a present, NON-EMPTY
document containing a present, non-null, non-empty value for every key of the
source document at every nesting level, the reconciliation pass returns the
raw translation map unchanged and attaches no Fallback Report.  (The
presence/non-emptiness proviso is what the counterexample forces: with an
empty source document, an absent or empty raw entry vacuously contains every
source key and is still source-filled with a report.) -/
theorem claim_C3_amended (raw : Res) (src : Document) (targets : List String) (sl : String)
    (fts rf : Bool) (fl : Option String) (rm : List (String × String))
    (h : ∀ lang ∈ targets, goodEntryB src raw lang = true) :
    applyFallbacks raw src targets sl fts rf fl rm = some (raw, none) := by
  have hstep : ∀ lang, goodEntryB src raw lang = true →
      processLang src fts rf rm (raw, initialFallbackInfo) lang =
        some (raw, initialFallbackInfo) := by
    intro lang hl
    cases hlk : lookupFirst raw lang with
    | none => simp [goodEntryB, hlk] at hl
    | some t =>
      cases t with
      | vObj f =>
        simp only [goodEntryB, hlk, Bool.and_eq_true] at hl
        obtain ⟨hne, hcomp⟩ := hl
        have hfe : f.isEmpty = false := by simpa using hne
        have hwm : wholeMissing raw lang = false := by
          cases f with
          | nil => simp at hfe
          | cons p t => simp [wholeMissing, hlk, truthy, ownKeys]
        cases fts <;>
          simp [processLang, hwm, hlk, typeofObject,
            completeB_no_missing src (vObj f) "" hcomp]
      | vNull => simp [goodEntryB, hlk] at hl
      | vStr s => simp [goodEntryB, hlk] at hl
      | vNum m => simp [goodEntryB, hlk] at hl
      | vBool b => simp [goodEntryB, hlk] at hl
      | vArr xs => simp [goodEntryB, hlk] at hl
  have hfold : ∀ ts : List String, (∀ lang ∈ ts, goodEntryB src raw lang = true) →
      ts.foldlM (processLang src fts rf rm) (raw, initialFallbackInfo) =
        some (raw, initialFallbackInfo) := by
    intro ts
    induction ts with
    | nil => intro _; rfl
    | cons lang rest ih =>
      intro hts
      rw [List.foldlM_cons, hstep lang (hts lang (List.mem_cons_self _ _))]
      simpa using ih (fun l hl => hts l (List.mem_cons_of_mem _ hl))
  simp only [applyFallbacks]
  rw [hfold targets h]
  rfl

/-- Witness for the amended claim C3 at a concrete input. -/
theorem claim_C3_amended_witness :
    (∀ lang ∈ ["es"], goodEntryB [("greeting", vStr "Hello")]
        [("es", vObj [("greeting", vStr "Hola")])] lang = true) ∧
    applyFallbacks [("es", vObj [("greeting", vStr "Hola")])] [("greeting", vStr "Hello")]
        ["es"] "en" true true none [] =
      some ([("es", vObj [("greeting", vStr "Hola")])], none) :=
  ⟨by simp [goodEntryB, completeB, sourceChains, lookupFirst, chainGet, jsLookup, presentB],
   claim_C3_amended _ _ _ _ _ _ _ _
     (by simp [goodEntryB, completeB, sourceChains, lookupFirst, chainGet, jsLookup, presentB])⟩

/-- Claim C2, amended.  The reconciliation pass reads other languages'
entries from the LIVE result map, so patches applied earlier in the same pass
are visible: whenever, after processing a prefix `l1` of the target list, the
next language `lang` is wholly missing and the regional-fallback test
succeeds against the current state `mid`, the document installed for `lang`
is the shallow copy of the base entry of `mid` — the state after `l1` — not
of the raw pre-pass result.  Consequently the output and the report can
depend on the processing order (see the counterexample). -/
theorem claim_C2_amended (raw : Res) (src : Document) (l1 : List String) (lang : String)
    (sl : String) (fts rf : Bool) (fl : Option String) (rm : List (String × String))
    (mid : Res × FallbackInfo) (baseLang : String) (bt : Value)
    (h1 : l1.foldlM (processLang src fts rf rm) (raw, initialFallbackInfo) = some mid)
    (h2 : wholeMissing mid.1 lang = true)
    (h3 : regionalCandidate mid.1 rf rm lang = some (baseLang, bt)) :
    applyFallbacks raw src (l1 ++ [lang]) sl fts rf fl rm =
      some (setEntry mid.1 lang (vObj (spreadToObj bt)),
        some { used := true,
               languagesFallbackToSource := mid.2.languagesFallbackToSource,
               regionalFallbacks := setEntry mid.2.regionalFallbacks lang baseLang,
               keysFallback := mid.2.keysFallback }) := by
  have hstep : processLang src fts rf rm mid lang =
      some (setEntry mid.1 lang (vObj (spreadToObj bt)),
        { used := true,
          languagesFallbackToSource := mid.2.languagesFallbackToSource,
          regionalFallbacks := setEntry mid.2.regionalFallbacks lang baseLang,
          keysFallback := mid.2.keysFallback }) := by
    obtain ⟨res, info⟩ := mid
    simp only [] at h2 h3
    simp [processLang, h2, h3]
  simp only [applyFallbacks]
  rw [List.foldlM_append, h1]
  simp [List.foldlM_cons, hstep]

/-- Witness for the amended claim C2 at a concrete input: after processing
`pt` (source-filled), `pt-BR` regional-copies that patched entry. -/
theorem claim_C2_amended_witness :
    (["pt"].foldlM (processLang [("greeting", vStr "Hello")] true true [("pt-BR", "pt")])
        (([] : Res), initialFallbackInfo) =
      some ([("pt", vObj [("greeting", vStr "Hello")])],
        { used := true, languagesFallbackToSource := ["pt"],
          regionalFallbacks := [], keysFallback := [] })) ∧
    wholeMissing [("pt", vObj [("greeting", vStr "Hello")])] "pt-BR" = true ∧
    regionalCandidate [("pt", vObj [("greeting", vStr "Hello")])] true [("pt-BR", "pt")]
        "pt-BR" = some ("pt", vObj [("greeting", vStr "Hello")]) ∧
    applyFallbacks [] [("greeting", vStr "Hello")] (["pt"] ++ ["pt-BR"]) "en" true true none
        [("pt-BR", "pt")] =
      some (setEntry [("pt", vObj [("greeting", vStr "Hello")])] "pt-BR"
              (vObj (spreadToObj (vObj [("greeting", vStr "Hello")]))),
        some { used := true, languagesFallbackToSource := ["pt"],
               regionalFallbacks := setEntry [] "pt-BR" "pt", keysFallback := [] }) :=
  ⟨rfl, rfl, rfl,
    claim_C2_amended [] [("greeting", vStr "Hello")] ["pt"] "pt-BR" "en" true true none
      [("pt-BR", "pt")]
      ([("pt", vObj [("greeting", vStr "Hello")])],
        { used := true, languagesFallbackToSource := ["pt"],
          regionalFallbacks := [], keysFallback := [] })
      "pt" (vObj [("greeting", vStr "Hello")]) rfl rfl rfl⟩

/-- One iteration of the language loop only writes the entry of the language
it processes (it may also mutate the report, and — in the heap — the interior
of objects aliased with the processed entry, which the value model does not
see; hence the duplicate-free hypothesis on the claim theorem below). -/
theorem processLang_lookup_ne (src : Document) (fts rf : Bool) (rm : List (String × String))
    (res : Res) (info : FallbackInfo) (lang : String) (res2 : Res) (info2 : FallbackInfo)
    (h : processLang src fts rf rm (res, info) lang = some (res2, info2))
    (l : String) (hne : l ≠ lang) :
    lookupFirst res2 l = lookupFirst res l := by
  have hform : res2 = res ∨ ∃ v, res2 = setEntry res lang v := by
    simp only [processLang] at h
    split at h
    · split at h
      · simp only [Option.some.injEq, Prod.mk.injEq] at h
        exact Or.inr ⟨_, h.1.symm⟩
      · split at h
        · simp only [Option.some.injEq, Prod.mk.injEq] at h
          exact Or.inr ⟨_, h.1.symm⟩
        · simp only [Option.some.injEq, Prod.mk.injEq] at h
          exact Or.inl h.1.symm
    · split at h
      · split at h
        · split at h
          · simp only [Option.some.injEq, Prod.mk.injEq] at h
            exact Or.inl h.1.symm
          · split at h
            · simp only [Option.some.injEq, Prod.mk.injEq] at h
              exact Or.inr ⟨_, h.1.symm⟩
            · exact absurd h (by simp)
        · simp only [Option.some.injEq, Prod.mk.injEq] at h
          exact Or.inl h.1.symm
      · simp only [Option.some.injEq, Prod.mk.injEq] at h
        exact Or.inl h.1.symm
  rcases hform with rfl | ⟨v, rfl⟩
  · rfl
  · exact lookupFirst_setEntry_ne res lang l v hne

/-- The whole pass only writes entries of the processed languages. -/
theorem foldlM_processLang_frame (src : Document) (fts rf : Bool)
    (rm : List (String × String)) :
    ∀ (ts : List String) (st out : Res × FallbackInfo),
      ts.foldlM (processLang src fts rf rm) st = some out →
      ∀ l, l ∉ ts → lookupFirst out.1 l = lookupFirst st.1 l := by
  intro ts
  induction ts with
  | nil =>
    intro st out h l _
    simp only [List.foldlM_nil] at h
    injection h with h2
    rw [h2]
  | cons lang rest ih =>
    intro st out h l hl
    rw [List.foldlM_cons] at h
    cases hstep : processLang src fts rf rm st lang with
    | none => rw [hstep] at h; simp at h
    | some st1 =>
      rw [hstep] at h
      have h' : rest.foldlM (processLang src fts rf rm) st1 = some out := by simpa using h
      have hl1 : l ∉ rest := fun hh => hl (List.mem_cons_of_mem _ hh)
      have hlne : l ≠ lang := fun hh => hl (hh ▸ List.mem_cons_self _ _)
      obtain ⟨st1res, st1info⟩ := st1
      obtain ⟨stres, stinfo⟩ := st
      rw [ih (st1res, st1info) out h' l hl1]
      exact processLang_lookup_ne src fts rf rm stres stinfo lang st1res st1info hstep l hlne

/-- Claim C10, amended.  Provided `targetLanguages` contains no duplicate
entries, the reconciliation pass only creates or mutates result entries whose
keys are in the target list (plus the separately attached report), and every
raw entry for a language not in the list is carried through unchanged.  The
duplicate-free proviso is forced by the counterexample: with a duplicated
regional target, the shallow copy made by the first pass aliases the base
language's sub-objects, and the second pass's in-place key fill mutates the
non-target base entry through that alias. -/
theorem claim_C10_amended (raw : Res) (src : Document) (targets : List String) (sl : String)
    (fts rf : Bool) (fl : Option String) (rm : List (String × String))
    (res2 : Res) (rpt : Option FallbackInfo)
    (hnd : targets.Nodup)
    (h : applyFallbacks raw src targets sl fts rf fl rm = some (res2, rpt)) :
    ∀ l, l ∉ targets → lookupFirst res2 l = lookupFirst raw l := by
  intro l hl
  simp only [applyFallbacks] at h
  cases hf : targets.foldlM (processLang src fts rf rm) (raw, initialFallbackInfo) with
  | none => rw [hf] at h; simp at h
  | some st =>
    rw [hf] at h
    simp only [Option.some.injEq, Prod.mk.injEq] at h
    rw [← h.1]
    exact foldlM_processLang_frame src fts rf rm targets (raw, initialFallbackInfo) st hf l hl

/-- Witness for the amended claim C10 at a concrete input: the non-target
entry `xx` is untouched. -/
theorem claim_C10_amended_witness :
    (["es"] : List String).Nodup ∧
    applyFallbacks [("xx", vObj [("k", vStr "v")])] [("greeting", vStr "Hello")] ["es"] "en"
        true true none [] =
      some ([("xx", vObj [("k", vStr "v")]), ("es", vObj [("greeting", vStr "Hello")])],
        some { used := true, languagesFallbackToSource := ["es"],
               regionalFallbacks := [], keysFallback := [] }) ∧
    ¬ ("xx" ∈ (["es"] : List String)) ∧
    lookupFirst [("xx", vObj [("k", vStr "v")]), ("es", vObj [("greeting", vStr "Hello")])]
        "xx" = lookupFirst [("xx", vObj [("k", vStr "v")])] "xx" :=
  ⟨by simp, rfl, by simp,
    claim_C10_amended [("xx", vObj [("k", vStr "v")])] [("greeting", vStr "Hello")] ["es"]
      "en" true true none []
      [("xx", vObj [("k", vStr "v")]), ("es", vObj [("greeting", vStr "Hello")])]
      (some { used := true, languagesFallbackToSource := ["es"],
              regionalFallbacks := [], keysFallback := [] })
      (by simp) rfl "xx" (by simp)⟩

/-- A successful lookup exhibits a member. -/
theorem lookupFirst_mem {κ α : Type} [DecidableEq κ] (l : List (κ × α)) (k : κ) (v : α)
    (h : lookupFirst l k = some v) : (k, v) ∈ l := by
  induction l with
  | nil => simp [lookupFirst] at h
  | cons p t ih =>
    obtain ⟨k', v'⟩ := p
    by_cases hk : k' = k
    · subst hk
      have h2 : v' = v := by simpa [lookupFirst] using h
      subst h2
      exact List.mem_cons_self _ _
    · simp only [lookupFirst, if_neg hk] at h
      exact List.mem_cons_of_mem _ (ih h)

/-- `regionalCandidate` reads the result map only at the base tag mapped to
the language. -/
theorem regionalCandidate_congr (res res' : Res) (rf : Bool) (rm : List (String × String))
    (lang : String)
    (h : ∀ b, lookupFirst rm lang = some b → lookupFirst res b = lookupFirst res' b) :
    regionalCandidate res rf rm lang = regionalCandidate res' rf rm lang := by
  cases rf with
  | false => rfl
  | true =>
    cases hlk : lookupFirst rm lang with
    | none => simp [regionalCandidate, hlk]
    | some b => simp [regionalCandidate, hlk, h b hlk]

/-- With `fallbackToSource` disabled, one iteration of the language loop
never fails, and it either leaves the result map unchanged or installs a
regional copy for the processed language. -/
theorem processLang_noFts (src : Document) (rf : Bool) (rm : List (String × String))
    (res : Res) (info : FallbackInfo) (lang : String) :
    ∃ res2 info2, processLang src false rf rm (res, info) lang = some (res2, info2) ∧
      (res2 = res ∨ ∃ baseLang bt, regionalCandidate res rf rm lang = some (baseLang, bt) ∧
        res2 = setEntry res lang (vObj (spreadToObj bt))) := by
  simp only [processLang]
  split
  · cases hrc : regionalCandidate res rf rm lang with
    | some p =>
      obtain ⟨b, bt⟩ := p
      exact ⟨_, _, rfl, Or.inr ⟨b, bt, rfl, rfl⟩⟩
    | none =>
      exact ⟨res, info, by simp, Or.inl rfl⟩
  · cases hlk : lookupFirst res lang with
    | some t =>
      exact ⟨res, info, by simp, Or.inl rfl⟩
    | none =>
      exact ⟨res, info, rfl, Or.inl rfl⟩

/-- A successful regional-fallback test pins the regional map entry. -/
theorem regionalCandidate_some_rm (res : Res) (rf : Bool) (rm : List (String × String))
    (lang b : String) (bt : Value)
    (h : regionalCandidate res rf rm lang = some (b, bt)) :
    lookupFirst rm lang = some b ∧ rf = true := by
  cases rf with
  | false => simp [regionalCandidate] at h
  | true =>
    cases hlk : lookupFirst rm lang with
    | none => simp [regionalCandidate, hlk] at h
    | some b2 =>
      refine ⟨?_, rfl⟩
      by_cases hb : b2 = ""
      · simp [regionalCandidate, hlk, hb] at h
      · cases hres : lookupFirst res b2 with
        | none => simp [regionalCandidate, hlk, hb, hres] at h
        | some bt2 =>
          by_cases hc : (truthy bt2 && !((ownKeys bt2).isEmpty)) = true
          · simp [regionalCandidate, hlk, hb, hres, hc] at h
            rw [h.1]
          · simp [regionalCandidate, hlk, hb, hres, hc] at h

/-- With `fallbackToSource` disabled and a well-formed regional map
(hyphenated keys, hyphen-free base values — the Regional Map invariant of the
spec), the pass preserves every hyphen-free entry, and the entry of a
language whose regional fallback is inapplicable against the raw map. -/
theorem foldlM_noFts_inv (src : Document) (rf : Bool) (rm : List (String × String))
    (raw : Res) (lang : String)
    (hrmk : ∀ p ∈ rm, (p.1 : String).data.contains '-' = true)
    (hrmv : ∀ p ∈ rm, (p.2 : String).data.contains '-' = false)
    (hreg : regionalCandidate raw rf rm lang = none) :
    ∀ (ts : List String) (st : Res × FallbackInfo),
      ((∀ k, k.data.contains '-' = false → lookupFirst st.1 k = lookupFirst raw k) ∧
        lookupFirst st.1 lang = lookupFirst raw lang) →
      ∃ out, ts.foldlM (processLang src false rf rm) st = some out ∧
        ((∀ k, k.data.contains '-' = false → lookupFirst out.1 k = lookupFirst raw k) ∧
          lookupFirst out.1 lang = lookupFirst raw lang) := by
  intro ts
  induction ts with
  | nil => intro st hInv; exact ⟨st, rfl, hInv⟩
  | cons l rest ih =>
    intro st hInv
    obtain ⟨stres, stinfo⟩ := st
    obtain ⟨res2, info2, hstep, hform⟩ := processLang_noFts src rf rm stres stinfo l
    have hInv2 : (∀ k, k.data.contains '-' = false → lookupFirst res2 k = lookupFirst raw k) ∧
        lookupFirst res2 lang = lookupFirst raw lang := by
      rcases hform with rfl | ⟨b, bt, hrc, rfl⟩
      · exact hInv
      · obtain ⟨hrml, _⟩ := regionalCandidate_some_rm stres rf rm l b bt hrc
        have hlmem : (l, b) ∈ rm := lookupFirst_mem rm l b hrml
        have hlhyph : l.data.contains '-' = true := hrmk (l, b) hlmem
        constructor
        · intro k hk
          have hkne : k ≠ l := by
            intro hh
            subst hh
            rw [hk] at hlhyph
            exact Bool.noConfusion hlhyph
          rw [lookupFirst_setEntry_ne stres l k _ hkne]
          exact hInv.1 k hk
        · by_cases hll : lang = l
          · subst hll
            exfalso
            have hcongr : regionalCandidate stres rf rm lang =
                regionalCandidate raw rf rm lang := by
              apply regionalCandidate_congr
              intro b2 hb2
              exact hInv.1 b2 (hrmv (lang, b2) (lookupFirst_mem rm lang b2 hb2))
            rw [hcongr, hreg] at hrc
            exact Option.noConfusion hrc
          · rw [lookupFirst_setEntry_ne stres l lang _ hll]
            exact hInv.2
    rw [List.foldlM_cons, hstep]
    obtain ⟨out, hfold, hinvout⟩ := ih (res2, info2) hInv2
    refine ⟨out, ?_, hinvout⟩
    simpa using hfold

/-- Claim C4, amended.  When a requested language's raw entry is missing or a
present-but-empty document, the regional fallback does not apply
(`regionalCandidate raw ... = none` covers: flag disabled, no regional-map
entry, empty base tag, or base entry absent/falsy/empty), and
`fallbackToSource` is disabled, the pass completes and leaves that
language's entry exactly as it was in the raw result: an absent entry stays
absent, but a present-but-empty document SURVIVES into the final result (the
code never deletes it), contrary to the original `no entry at all`.  The
regional map is assumed to satisfy the spec's Regional Map invariant
(hyphenated keys, hyphen-free values). -/
theorem claim_C4_amended (raw : Res) (src : Document) (targets : List String) (sl : String)
    (rf : Bool) (fl : Option String) (rm : List (String × String)) (lang : String)
    (hrmk : ∀ p ∈ rm, (p.1 : String).data.contains '-' = true)
    (hrmv : ∀ p ∈ rm, (p.2 : String).data.contains '-' = false)
    (hlang : lookupFirst raw lang = none ∨ lookupFirst raw lang = some (vObj []))
    (hreg : regionalCandidate raw rf rm lang = none) :
    ∃ res2 rpt, applyFallbacks raw src targets sl false rf fl rm = some (res2, rpt) ∧
      lookupFirst res2 lang = lookupFirst raw lang := by
  obtain ⟨out, hfold, hinv⟩ := foldlM_noFts_inv src rf rm raw lang hrmk hrmv hreg targets
    (raw, initialFallbackInfo) ⟨fun k _ => rfl, rfl⟩
  refine ⟨out.1, if out.2.used then some out.2 else none, ?_, hinv.2⟩
  simp only [applyFallbacks]
  rw [hfold]

/-- Witness for the amended claim C4 at a concrete input: the empty `de`
entry survives unchanged. -/
theorem claim_C4_amended_witness :
    (lookupFirst [("de", vObj ([] : List (String × Value)))] "de" = some (vObj []) ∧
     regionalCandidate [("de", vObj [])] true [] "de" = none) ∧
    ∃ res2 rpt, applyFallbacks [("de", vObj [])] [("greeting", vStr "Hello")] ["de"] "en"
        false true none [] = some (res2, rpt) ∧
      lookupFirst res2 "de" = lookupFirst [("de", vObj [])] "de" :=
  ⟨⟨rfl, rfl⟩,
    claim_C4_amended [("de", vObj [])] [("greeting", vStr "Hello")] ["de"] "en" true none []
      "de" (by simp) (by simp) (Or.inr rfl) rfl⟩
